import Mathlib

/-!
Verification of the classification resolution engine of the BG-Toolbox
material classifier (taxonomy loader, keyword/brand matcher, LLM response
extractor, validator, retry loop and batch driver), shallowly embedded from
the Python sources under `material_classifier_web` (with the sibling
variants agreeing on the modelled parts).
-/

namespace MC

/-! ## Text normalization

Python `str.strip()` removes the whitespace characters space, tab, newline,
carriage return, vertical tab and form feed from both ends; `str.lower()`
is modelled per character by `Char.toLower` (the records and taxonomy are
ASCII plus CJK text, on which Python lower-casing acts exactly this way);
`str.replace(x, "")` removes every occurrence of the character `x`.
-/

/-- Whitespace test matching Python `str.strip()` with no arguments. -/
def isPyWs (c : Char) : Bool :=
  (c == ' ') || (c == '\t') || (c == '\n') || (c == '\r') || (c == '\x0B') || (c == '\x0C')

/-- Embedding of Python `str.strip()` on a character list. -/
def stripL (l : List Char) : List Char :=
  ((l.dropWhile isPyWs).reverse.dropWhile isPyWs).reverse

/-- Embedding of Python `str.replace(c, "")`: delete every occurrence of `c`. -/
def removeChar (c : Char) (l : List Char) : List Char :=
  l.filter (fun x => x != c)

/-- Embedding of Python `str.lower()`, applied per character. -/
def lowerL (l : List Char) : List Char :=
  l.map Char.toLower

/-- Matcher-side normalization, from `KeywordMatcher._normalize_text`:
`text.lower().strip().replace(" ", "").replace("\t", "").replace("\n", "")`. -/
def normMList (l : List Char) : List Char :=
  removeChar '\n' (removeChar '\t' (removeChar ' ' (stripL (lowerL l))))

/-- Validator/loader-side normalization, from
`MaterialClassifier.validate_classification_result` and
`load_classification_standards`:
`text.strip().lower().replace(" ", "").replace("\t", "")`. -/
def normVList (l : List Char) : List Char :=
  removeChar '\t' (removeChar ' ' (lowerL (stripL l)))

/-- Matcher normalization on strings (`KeywordMatcher._normalize_text`). -/
def normTextM (s : String) : String :=
  String.mk (normMList s.data)

/-- Validator/loader normalization on strings. -/
def normTextV (s : String) : String :=
  String.mk (normVList s.data)

/-! ## Keyword / brand cell splitting

`re.split(r"[、,，]", cell)` splits on each single delimiter character;
the comprehension `[x.strip() for x in parts if x.strip()]` keeps the
stripped nonempty parts.
-/

/-- Delimiter set of the keyword/brand cell splitter: ASCII comma,
full-width comma, Chinese enumeration comma. -/
def isDelim (c : Char) : Bool :=
  (c == '、') || (c == ',') || (c == '，')

/-- Split a character list at every delimiter character (embedding of
`re.split(r"[、,，]", s)`; consecutive delimiters yield empty parts). -/
def splitParts : List Char → List (List Char)
  | [] => [[]]
  | c :: cs =>
    let ps := splitParts cs
    if isDelim c then [] :: ps
    else
      match ps with
      | p :: rest => (c :: p) :: rest
      | [] => [[c]]

/-- Embedding of `[x.strip() for x in re.split(r"[、,，]", s) if x.strip()]`. -/
def splitClean (l : List Char) : List (List Char) :=
  ((splitParts l).map stripL).filter (fun p => p ≠ [])

/-! ## Taxonomy store -/

/-- Value stored in the classification mapping for one taxonomy entry:
`(original_main, original_sub, keywords, explanation, common_brands)`. -/
structure TaxEntry where
  origMain : String
  origSub : String
  keywords : String
  explanation : String
  commonBrands : String
deriving DecidableEq, Repr

/-- The classification mapping: association list keyed by the normalized
`(main, sub)` pair, in Python `dict` insertion order. -/
abbrev TaxMapping : Type := List ((String × String) × TaxEntry)

/-- Python substring containment `pat in s` on character lists. -/
def isSubList (pat l : List Char) : Bool :=
  decide (List.IsInfix pat l)

/-- Python `dict` assignment `d[k] = v`: replace the value in place when the
key exists, otherwise append at the end. -/
def dictInsert (m : TaxMapping) (k : String × String) (v : TaxEntry) : TaxMapping :=
  match m with
  | [] => [(k, v)]
  | (k', v') :: rest =>
    if k' = k then (k, v) :: rest else (k', v') :: dictInsert rest k v

/-- Python `k in d` / `d[k]` lookup on the association list. -/
def dictLookup (m : TaxMapping) (k : String × String) : Option TaxEntry :=
  match m with
  | [] => none
  | (k', v') :: rest => if k' = k then some v' else dictLookup rest k

/-! ## Taxonomy loader -/

/-- One raw row of the tabular source, holding the five cells
`str(row[cols[1]])` .. `str(row[cols[5]])` before strip/sentinel filtering. -/
structure Row where
  mainCat : String
  subCat : String
  keywords : String
  explanation : String
  commonBrands : String
deriving DecidableEq, Repr

/-- Cell preprocessing of the loader: strip, then map the pandas missing-value
sentinel (the literal string `nan`) to the empty string. -/
def procCell (s : String) : String :=
  let t := String.mk (stripL s.data)
  if t = ("nan" : String) then ("" : String) else t

/-- One iteration of the loader loop of
`MaterialClassifier.load_classification_standards`: carry the current main
category forward, and contribute an entry when the current main category is
set and the row's own sub-category cell is nonempty. -/
def loadStep (acc : String × TaxMapping) (row : Row) : String × TaxMapping :=
  let mc := procCell row.mainCat
  let sc := procCell row.subCat
  let kw := procCell row.keywords
  let ex := procCell row.explanation
  let cb := procCell row.commonBrands
  let cur := if mc ≠ ("" : String) then mc else acc.1
  if cur ≠ ("" : String) ∧ sc ≠ ("" : String) then
    (cur,
      dictInsert acc.2
        (String.mk (normVList cur.data), String.mk (normVList sc.data))
        ⟨cur, sc, kw, ex, cb⟩)
  else
    (cur, acc.2)

/-- Mapping built from the rows of the tabular source (`current_main_category`
starts unset, modelled as the empty string, which Python treats identically
under truthiness). -/
def loadRows (rows : List Row) : TaxMapping :=
  (rows.foldl loadStep (("" : String), [])).2

/-- Embedding of `load_classification_standards`: raise (error) when no valid
rule was loaded, otherwise return the mapping. -/
def load_classification_standards (rows : List Row) : Except String TaxMapping :=
  let m := loadRows rows
  if m = ([] : TaxMapping) then Except.error ("no valid classification rules loaded")
  else Except.ok m

/-- Current main category carried by the loader across a list of rows,
starting from `cur`; used to state the loader contribution rule
positionally. -/
def currentMainFrom (cur : String) (rows : List Row) : String :=
  rows.foldl
    (fun c row =>
      let mc := procCell row.mainCat
      if mc ≠ ("" : String) then mc else c)
    cur

/-- Current main category carried by the loader after consuming a list of
rows, starting unset. -/
def currentMainAfter (rows : List Row) : String :=
  currentMainFrom ("" : String) rows

/-! ## Keyword / brand matcher -/

/-- Material record view consulted by the matcher: the four free-text fields
in their precedence order (name, model, brand, raw material). -/
structure MaterialRecord where
  materialName : String
  model : String
  brand : String
  material : String
deriving DecidableEq, Repr

/-- Matches contributed by a single taxonomy entry for a normalized field
value, from the inner loops of `KeywordMatcher.match_keywords`: one match
per keyword of the entry whose normalization is a substring of the value. -/
def entryKeywordMatches (normName : List Char) (e : TaxEntry) :
    List (String × String × String) :=
  if e.keywords = ("" : String) then []
  else
    (splitClean e.keywords.data).filterMap (fun kw =>
      let nk := normMList kw
      if nk = [] then none
      else if isSubList nk normName then some (e.origMain, e.origSub, e.commonBrands)
      else none)

/-- Embedding of `KeywordMatcher.match_keywords`: all
`(original_main, original_sub, common_brands)` triples whose keyword list
matches the given field value, in mapping order. -/
def match_keywords (m : TaxMapping) (name : String) :
    List (String × String × String) :=
  if name = ("" : String) then []
  else
    let nn := normMList name.data
    if nn = [] then []
    else m.flatMap (fun kv => entryKeywordMatches nn kv.2)

/-- Deduplication by `(main, sub)` pair preserving first-seen order
(the `checked_categories` set of `match_by_multiple_fields`). -/
def dedupPairs : List (String × String × String) → List (String × String) →
    List (String × String × String)
  | [], _ => []
  | t :: ts, seen =>
    if seen.contains (t.1, t.2.1) then dedupPairs ts seen
    else t :: dedupPairs ts ((t.1, t.2.1) :: seen)

/-- Embedding of `KeywordMatcher.match_by_multiple_fields`: consult the
fields in fixed precedence order and stop at the first field yielding at
least one match; matches of one field are deduplicated by category pair. -/
def match_by_multiple_fields (m : TaxMapping) (r : MaterialRecord) :
    List (String × String × String) :=
  let a := dedupPairs (match_keywords m r.materialName) []
  if a ≠ [] then a
  else
    let b := dedupPairs (match_keywords m r.model) []
    if b ≠ [] then b
    else
      let c := dedupPairs (match_keywords m r.brand) []
      if c ≠ [] then c
      else dedupPairs (match_keywords m r.material) []

/-- Brand affinity test of one candidate, from the inner loop of
`match_by_keywords_and_brand`: some brand of the candidate's brand cell has a
nonempty normalization that contains or is contained in the normalized
record brand. -/
def entryBrandMatches (nb : List Char) (brands : String) : Bool :=
  if brands = ("" : String) then false
  else
    (splitClean brands.data).any (fun b =>
      let nbr := normMList b
      decide (nbr ≠ []) && (isSubList nbr nb || isSubList nb nbr))

/-- Projection of a matcher triple to its `(main, sub)` pair. -/
def pairOf (t : String × String × String) : String × String :=
  (t.1, t.2.1)

/-- Embedding of `KeywordMatcher.match_by_keywords_and_brand`: single
distinct keyword match is returned directly; with several candidates the
record brand disambiguates (first brand-matching candidate), falling back to
the first keyword candidate; an empty normalized record brand skips the
brand pass entirely. -/
def match_by_keywords_and_brand (m : TaxMapping) (r : MaterialRecord) :
    Option (String × String) :=
  match match_by_multiple_fields m r with
  | [] => none
  | [t] => some (pairOf t)
  | t :: rest =>
    let nb := normMList r.brand.data
    if nb = [] then some (pairOf t)
    else
      match (t :: rest).find? (fun u => entryBrandMatches nb u.2.2) with
      | some u => some (pairOf u)
      | none => some (pairOf t)

/-! ## Validator -/

/-- Candidate classification result: the two category fields (a missing or
`None` field is modelled as the empty string, which Python treats
identically under the `not` test), the provenance tag, and the remaining
key/value pairs of the parsed LLM object, preserved verbatim. -/
structure ClassResult where
  mainCategory : String
  subCategory : String
  source : String
  extra : List (String × String)
deriving DecidableEq, Repr

/-- Embedding of `MaterialClassifier.validate_classification_result`:
reject incomplete results, reject pairs whose normalization is not a key of
the mapping, and otherwise overwrite both fields with the stored
original-cased strings. -/
def validate_classification_result (m : TaxMapping) (r : ClassResult) :
    Except String ClassResult :=
  if r.mainCategory = ("" : String) ∨ r.subCategory = ("" : String) then
    Except.error ("incomplete classification result")
  else
    let nm := String.mk (normVList r.mainCategory.data)
    let ns := String.mk (normVList r.subCategory.data)
    match dictLookup m (nm, ns) with
    | none => Except.error ("classification result not in standards")
    | some e =>
      Except.ok { r with mainCategory := e.origMain, subCategory := e.origSub }

/-! ## JSON values and parsing

Embedding of `json.loads` for the payloads this engine exchanges: objects,
arrays, strings (with the simple escapes), integer numerals and the three
literals.  Leading/trailing JSON whitespace is accepted; trailing
non-whitespace data is rejected, as `json.loads` does.
-/

/-- JSON value. -/
inductive Json where
  | null : Json
  | bool (b : Bool) : Json
  | num (n : Int) : Json
  | str (s : String) : Json
  | arr (elems : List Json) : Json
  | obj (fields : List (String × Json)) : Json
deriving Repr

/-- JSON insignificant whitespace. -/
def jsonWs (c : Char) : Bool :=
  (c == ' ') || (c == '\t') || (c == '\n') || (c == '\r')

/-- Skip JSON whitespace. -/
def skipWs : List Char → List Char
  | [] => []
  | c :: cs => if jsonWs c then skipWs cs else c :: cs

/-- Decode one JSON string escape character. -/
def escChar (c : Char) : Option Char :=
  if c = '"' then some '"'
  else if c = '\\' then some '\\'
  else if c = '/' then some '/'
  else if c = 'n' then some '\n'
  else if c = 't' then some '\t'
  else if c = 'r' then some '\r'
  else if c = 'b' then some '\x08'
  else if c = 'f' then some '\x0C'
  else none

/-- Parse the body of a JSON string after the opening quote, returning the
content and the input after the closing quote. -/
def parseStringBody : List Char → Option (List Char × List Char)
  | [] => none
  | c :: cs =>
    if c = '"' then some ([], cs)
    else if c = '\\' then
      match cs with
      | [] => none
      | e :: cs' =>
        match escChar e with
        | none => none
        | some d =>
          match parseStringBody cs' with
          | none => none
          | some (b, r) => some (d :: b, r)
    else
      match parseStringBody cs with
      | none => none
      | some (b, r) => some (c :: b, r)

/-- Digit test. -/
def isDigitCh (c : Char) : Bool := ('0' ≤ c) && (c ≤ '9')

/-- Numeric value of a digit list. -/
def digitsToNat (l : List Char) : Nat :=
  l.foldl (fun a c => a * 10 + (c.toNat - 48)) 0

/-- Parse an unsigned integer numeral. -/
def parseNatNum (l : List Char) : Option (Nat × List Char) :=
  let ds := l.takeWhile isDigitCh
  let r := l.dropWhile isDigitCh
  if ds = [] then none else some (digitsToNat ds, r)

/-- Parse an optionally negated integer numeral. -/
def parseIntNum : List Char → Option (Int × List Char)
  | '-' :: rest =>
    match parseNatNum rest with
    | none => none
    | some (n, r) => some (-(n : Int), r)
  | l =>
    match parseNatNum l with
    | none => none
    | some (n, r) => some ((n : Int), r)

/-- Match a literal keyword at the front of the input. -/
def stripLit (lit l : List Char) : Option (List Char) :=
  if l.take lit.length = lit then some (l.drop lit.length) else none

mutual

/-- Parse one JSON value (fuel-indexed recursive descent). -/
def parseVal : Nat → List Char → Option (Json × List Char)
  | 0, _ => none
  | Nat.succ f, l =>
    match skipWs l with
    | [] => none
    | c :: cs =>
      if c = '"' then
        match parseStringBody cs with
        | none => none
        | some (b, r) => some (Json.str (String.mk b), r)
      else if c = '{' then
        match skipWs cs with
        | '}' :: r => some (Json.obj [], r)
        | l' =>
          match parseObjTail f l' with
          | none => none
          | some (fs, r) => some (Json.obj fs, r)
      else if c = '[' then
        match skipWs cs with
        | ']' :: r => some (Json.arr [], r)
        | l' =>
          match parseArrTail f l' with
          | none => none
          | some (es, r) => some (Json.arr es, r)
      else if c = 't' then
        match stripLit ('r' :: 'u' :: 'e' :: []) cs with
        | some r => some (Json.bool true, r)
        | none => none
      else if c = 'f' then
        match stripLit ('a' :: 'l' :: 's' :: 'e' :: []) cs with
        | some r => some (Json.bool false, r)
        | none => none
      else if c = 'n' then
        match stripLit ('u' :: 'l' :: 'l' :: []) cs with
        | some r => some (Json.null, r)
        | none => none
      else
        match parseIntNum (c :: cs) with
        | none => none
        | some (n, r) => some (Json.num n, r)

/-- Parse the members of a JSON object after the opening brace (at least one
member; the empty object is handled by the caller). -/
def parseObjTail : Nat → List Char → Option (List (String × Json) × List Char)
  | 0, _ => none
  | Nat.succ f, l =>
    match l with
    | '"' :: cs =>
      match parseStringBody cs with
      | none => none
      | some (key, r1) =>
        match skipWs r1 with
        | ':' :: r2 =>
          match parseVal f r2 with
          | none => none
          | some (v, r3) =>
            match skipWs r3 with
            | ',' :: r4 =>
              match parseObjTail f (skipWs r4) with
              | none => none
              | some (fs, r) => some ((String.mk key, v) :: fs, r)
            | '}' :: r4 => some ([(String.mk key, v)], r4)
            | _ => none
        | _ => none
    | _ => none

/-- Parse the elements of a JSON array after the opening bracket (at least
one element; the empty array is handled by the caller). -/
def parseArrTail : Nat → List Char → Option (List Json × List Char)
  | 0, _ => none
  | Nat.succ f, l =>
    match parseVal f l with
    | none => none
    | some (v, r1) =>
      match skipWs r1 with
      | ',' :: r2 =>
        match parseArrTail f (skipWs r2) with
        | none => none
        | some (es, r) => some (v :: es, r)
      | ']' :: r2 => some ([v], r2)
      | _ => none

end

/-- Embedding of `json.loads`: parse one value and reject trailing
non-whitespace data. -/
def jsonParse (l : List Char) : Option Json :=
  match parseVal (l.length + 1) l with
  | none => none
  | some (v, rest) => if skipWs rest = [] then some v else none

/-! ## Response extraction

`MaterialClassifier._call_deepseek_api` recovers a JSON value from the raw
response text: whole-text parse, then markdown fence stripping, then a scan
for brace-delimited substrings with `re.findall(r"\{.*?\}", text, re.DOTALL)`
— a non-greedy (shortest span) pattern — taking the last match, falling back
to the analogous bracket scan, and finally parsing the chosen substring.
-/

/-- Split a character list at the first occurrence of `cl`, returning the
part before it and the part after it. -/
def splitAtClose (cl : Char) : List Char → Option (List Char × List Char)
  | [] => none
  | c :: cs =>
    if c = cl then some ([], cs)
    else
      match splitAtClose cl cs with
      | none => none
      | some (b, r) => some (c :: b, r)

/-- Scanning loop of the non-greedy pattern: outside a match, an opening
character starts one; inside a match, the first closing character ends it
(the accumulator holds the match body in reverse). -/
def scanPairsGo (op cl : Char) : List Char → List Char → Bool → List (List Char)
  | [], _, _ => []
  | c :: cs, acc, inMatch =>
    if inMatch then
      if c = cl then (op :: (acc.reverse ++ [cl])) :: scanPairsGo op cl cs [] false
      else scanPairsGo op cl cs (c :: acc) true
    else
      if c = op then scanPairsGo op cl cs [] true
      else scanPairsGo op cl cs [] false

/-- All matches of the non-greedy pattern `\{.*?\}` (for `op = '{'`,
`cl = '}'`) under `re.findall` with `re.DOTALL`: left to right, each match
runs from an opening character to the first closing character after it, and
scanning resumes after the match. -/
def scanPairs (op cl : Char) (l : List Char) : List (List Char) :=
  scanPairsGo op cl l [] false

/-- Split a character list at the last occurrence of `cl`. -/
def splitAtLastClose (cl : Char) (l : List Char) : Option (List Char × List Char) :=
  match splitAtClose cl l.reverse with
  | none => none
  | some (rb, bb) => some (bb.reverse, rb.reverse)

/-- All matches of the greedy pattern `\{.*\}` under `re.findall` with
`re.DOTALL`: the single match (when one exists) runs from the first opening
character to the last closing character after it; the remaining text then
contains no closing character, so no further match exists. -/
def scanGreedy (op cl : Char) (l : List Char) : List (List Char) :=
  match l.dropWhile (fun c => c != op) with
  | [] => []
  | _ :: rest =>
    match splitAtLastClose cl rest with
    | none => []
    | some (body, _) => [op :: (body ++ [cl])]

/-- The backquote character (code 96). -/
def backq : Char := Char.ofNat 96

/-- Markdown fence stripping step of the extractor: when the stripped text
both starts and ends with a triple backquote, remove the fences, re-strip,
and drop a leading `json` language tag. -/
def stripFences (l : List Char) : List Char :=
  if l.take 3 = [backq, backq, backq] ∧ l.reverse.take 3 = [backq, backq, backq] then
    let inner := stripL ((l.drop 3).take (l.length - 6))
    if inner.take 4 = ('j' :: 's' :: 'o' :: 'n' :: []) then stripL (inner.drop 4)
    else inner
  else l

/-- Embedding of the JSON-recovery logic of `_call_deepseek_api`: whole-text
parse first; on failure strip fences, take the last non-greedy brace match
(falling back to the last bracket match, then to the cleaned text itself)
and parse that substring. -/
def extract_json_part (content : List Char) : Option Json :=
  match jsonParse content with
  | some v => some v
  | none =>
    let cleaned := stripFences (stripL content)
    let jsonPart :=
      match (scanPairs '{' '}' cleaned).getLast? with
      | some mth => mth
      | none =>
        match (scanPairs '[' ']' cleaned).getLast? with
        | some mth => mth
        | none => cleaned
    jsonParse jsonPart

/-- Extractor as the claim describes it, for comparison: identical pipeline
but scanning with the greedy pattern (`\{.*\}`) instead of the non-greedy
one. -/
def extractGreedySpec (content : List Char) : Option Json :=
  match jsonParse content with
  | some v => some v
  | none =>
    let cleaned := stripFences (stripL content)
    let jsonPart :=
      match (scanGreedy '{' '}' cleaned).getLast? with
      | some mth => mth
      | none =>
        match (scanGreedy '[' ']' cleaned).getLast? with
        | some mth => mth
        | none => cleaned
    jsonParse jsonPart

/-! ## Remote-call retry loop and failure ceiling

`_call_deepseek_api` runs `for attempt in range(MAX_RETRIES)`; a successful
attempt resets the instance-level counter `continuous_api_failures` to zero
and returns; a failed attempt increments it, re-raises immediately once the
counter has reached `MAX_API_FAILURES`, and otherwise sleeps and retries
until the per-call budget is exhausted.  The per-attempt outcome (the whole
`try` body: transport, extraction and shape checks) is abstracted as an
oracle from the attempt index to `Option R`.
-/

/-- One execution of the retry loop, indexed by the number of loop
iterations remaining (`rem`, initially `MAX_RETRIES`), the current loop
index `attempt` and the consecutive-failure counter `fails`; returns the
final counter, the call's result (`none` models a raised exception) and the
number of attempts consumed.  A successful attempt resets the counter and
returns; a failed attempt increments it and re-raises at once when it has
reached `maxFail`, retries when budget remains (`attempt < MAX_RETRIES - 1`,
that is `0 < rem - 1`), and otherwise re-raises. -/
def callApiGo {R : Type} (oracle : Nat → Option R) (maxFail : Nat) :
    Nat → Nat → Nat → Nat × Option R × Nat
  | 0, attempt, fails => (fails, none, attempt)
  | Nat.succ rem, attempt, fails =>
    match oracle attempt with
    | some r => (0, some r, attempt + 1)
    | none =>
      if maxFail ≤ fails + 1 then (fails + 1, none, attempt + 1)
      else if 0 < rem then callApiGo oracle maxFail rem (attempt + 1) (fails + 1)
      else (fails + 1, none, attempt + 1)

/-- Embedding of one `_call_deepseek_api` call entered with
consecutive-failure counter `fails`. -/
def call_deepseek_api {R : Type} (oracle : Nat → Option R) (maxRetries maxFail fails : Nat) :
    Nat × Option R × Nat :=
  callApiGo oracle maxFail maxRetries 0 fails

/-- A sequence of remote calls sharing the process-wide counter (the
classifier is a singleton, so the counter persists across classify calls):
per call, the result and the attempts consumed; finally the ending counter. -/
def runCalls {R : Type} (maxRetries maxFail : Nat) :
    List (Nat → Option R) → Nat → List (Option R × Nat) × Nat
  | [], fails => ([], fails)
  | o :: os, fails =>
    let step := call_deepseek_api o maxRetries maxFail fails
    let rest := runCalls maxRetries maxFail os step.1
    ((step.2.1, step.2.2) :: rest.1, rest.2)

/-! ## Batch driver -/

/-- Outcome wrapper of `classify_batch`: the original record together with
either its classification result (status `success`) or its error message
(status `failed`). -/
inductive BatchOutcome (M R : Type) where
  | success (orig : M) (res : R)
  | failed (orig : M) (err : String)
deriving Repr

/-- The per-record body of the batch loop: wrap the classify outcome. -/
def batchWrap {M R : Type} (f : M → Except String R) (m : M) : BatchOutcome M R :=
  match f m with
  | Except.ok r => BatchOutcome.success m r
  | Except.error e => BatchOutcome.failed m e

/-- Embedding of `MaterialClassifier.classify_batch`, parameterized by the
per-record classification function (`classify_material`); returns the
outcome list and the number of inter-record rate-limit sleeps performed
(`time.sleep(Config.API_RATE_LIMIT)` runs after every record except the
last). -/
def classify_batch {M R : Type} (f : M → Except String R) :
    List M → List (BatchOutcome M R) × Nat
  | [] => ([], 0)
  | m :: rest =>
    match rest with
    | [] => ([batchWrap f m], 0)
    | _ :: _ =>
      let tail := classify_batch f rest
      (batchWrap f m :: tail.1, tail.2 + 1)

/-! ## Claim-side comparison models -/

/-- Brand-affinity test exactly as the claim's sentence states it: a
candidate is a brand match when the normalized record brand and a normalized
candidate brand are substrings of each other in either direction (no
empty-brand guards). -/
def specBrandMatches (nb : List Char) (brands : String) : Bool :=
  (splitClean brands.data).any (fun b =>
    let nbr := normMList b
    isSubList nbr nb || isSubList nb nbr)

/-- Disambiguation exactly as the claim's sentence states it: one distinct
candidate is returned directly; otherwise the first brand-matching candidate
(per `specBrandMatches`), else the first keyword candidate. -/
def match_by_keywords_and_brand_specModel (m : TaxMapping) (r : MaterialRecord) :
    Option (String × String) :=
  match match_by_multiple_fields m r with
  | [] => none
  | [t] => some (pairOf t)
  | t :: rest =>
    let nb := normMList r.brand.data
    match (t :: rest).find? (fun u => specBrandMatches nb u.2.2) with
    | some u => some (pairOf u)
    | none => some (pairOf t)

/-- Brand-affinity test as the amended claim states it: some brand in the
candidate's brand cell has a nonempty normalization that is a substring of
the normalized record brand or contains it. -/
def amendedBrandMatches (nb : List Char) (brands : String) : Bool :=
  (splitClean brands.data).any (fun b =>
    decide (normMList b ≠ []) && (isSubList (normMList b) nb || isSubList nb (normMList b)))

/-- Disambiguation as the amended claim states it: a single keyword
candidate is returned directly; with several candidates and a nonempty
normalized record brand, the first brand-matching candidate per
`amendedBrandMatches` is returned, falling back to the first keyword
candidate; with an empty normalized record brand the brand pass is skipped
and the first keyword candidate is returned. -/
def match_by_keywords_and_brand_amendedModel (m : TaxMapping) (r : MaterialRecord) :
    Option (String × String) :=
  match match_by_multiple_fields m r with
  | [] => none
  | [t] => some (pairOf t)
  | t :: rest =>
    let nb := normMList r.brand.data
    if nb = [] then some (pairOf t)
    else some (pairOf (((t :: rest).find? (fun u => amendedBrandMatches nb u.2.2)).getD t))

/-! ## Concrete material for examples -/

/-- JSON string literal text for a plain content string. -/
def strLit (s : String) : List Char :=
  '"' :: (s.data ++ ['"'])

/-- Text of the flat object with the two category fields
(`\x7b"main_category":"<mv>","sub_category":"<sv>"\x7d`). -/
def mkPairObj (mv sv : String) : List Char :=
  '{' :: (strLit ("main_category") ++ ':' :: strLit mv ++ ',' ::
    strLit ("sub_category") ++ ':' :: strLit sv ++ ['}'])

/-- Body of the flat classification object, between the braces. -/
def pairBody (mv sv : String) : List Char :=
  strLit ("main_category") ++ ':' :: strLit mv ++ ',' ::
    strLit ("sub_category") ++ ':' :: strLit sv

/-- Text made of two flat classification objects in sequence, separated by a
space. -/
def twoObjText (m1 s1 m2 s2 : String) : List Char :=
  mkPairObj m1 s1 ++ ' ' :: mkPairObj m2 s2

/-- Character lists free of brace characters. -/
abbrev braceFree (l : List Char) : Prop :=
  ∀ c ∈ l, c ≠ '{' ∧ c ≠ '}'

/-- Strings free of JSON-string and brace metacharacters, as they appear in
category values. -/
def plainChars (s : String) : Prop :=
  ∀ c ∈ s.data, c ≠ '"' ∧ c ≠ '\\' ∧ c ≠ '{' ∧ c ≠ '}'

instance (s : String) : Decidable (plainChars s) := by
  unfold plainChars
  infer_instance


/-! # Theorems -/

theorem splitAtClose_spec {cl : Char} :
    ∀ {l b r : List Char}, splitAtClose cl l = some (b, r) → l = b ++ cl :: r := by
  intro l
  induction l with
  | nil => intro b r h; simp [splitAtClose] at h
  | cons c cs ih =>
    intro b r h
    by_cases hc : c = cl
    · simp [splitAtClose, hc] at h
      simp [hc, ← h.1, ← h.2]
    · simp only [splitAtClose, if_neg hc] at h
      cases hs : splitAtClose cl cs with
      | none => rw [hs] at h; simp at h
      | some br =>
        rw [hs] at h
        obtain ⟨b', r'⟩ := br
        simp at h
        have hcs := ih hs
        rw [← h.1, ← h.2, hcs]
        simp

theorem char_toNat_ofNat {n : Nat} (h : n < 55296) : (Char.ofNat n).toNat = n := by
  have hv : n.isValidChar := Or.inl h
  simp [Char.ofNat, hv, Char.ofNatAux, Char.toNat, UInt32.toNat, BitVec.toNat_ofNatLt]

theorem char_eq_iff_toNat {c d : Char} : c = d ↔ c.toNat = d.toNat := by
  constructor
  · intro h; rw [h]
  · intro h
    apply Char.ext
    exact UInt32.toNat.inj h

theorem toLower_eq_or (c : Char) :
    Char.toLower c = c ∨
      (65 ≤ c.toNat ∧ c.toNat ≤ 90 ∧ (Char.toLower c).toNat = c.toNat + 32) := by
  unfold Char.toLower
  by_cases h : 65 ≤ c.toNat ∧ c.toNat ≤ 90
  · right
    refine ⟨h.1, h.2, ?_⟩
    simp only [if_pos h, ge_iff_le]
    exact char_toNat_ofNat (by omega)
  · left
    simp [h]

theorem toLower_toLower (c : Char) : Char.toLower (Char.toLower c) = Char.toLower c := by
  unfold Char.toLower
  by_cases h : 65 ≤ c.toNat ∧ c.toNat ≤ 90
  · simp only [if_pos h, ge_iff_le]
    have h32 : c.toNat + 32 < 55296 := by omega
    rw [char_toNat_ofNat h32]
    rw [if_neg (by omega)]
  · simp [h]

theorem beq_char (c d : Char) : (c == d) = decide (c.toNat = d.toNat) := by
  by_cases h : c = d
  · subst h; simp
  · have hn : c.toNat ≠ d.toNat := fun hh => h (char_eq_iff_toNat.mpr hh)
    simp [h, hn]

theorem isPyWs_eq (c : Char) :
    isPyWs c = (decide (c.toNat = 32) || decide (c.toNat = 9) || decide (c.toNat = 10) ||
      decide (c.toNat = 13) || decide (c.toNat = 11) || decide (c.toNat = 12)) := by
  simp only [isPyWs, beq_char]
  rfl

theorem isPyWs_toLower (c : Char) : isPyWs (Char.toLower c) = isPyWs c := by
  rw [isPyWs_eq, isPyWs_eq]
  rcases toLower_eq_or c with h | ⟨h1, h2, h3⟩
  · rw [h]
  · rw [h3]
    rw [Bool.eq_iff_iff]
    simp only [Bool.or_eq_true, decide_eq_true_eq]
    omega

theorem not_ws_bne (c e : Char) (he : isPyWs e = true) (hc : isPyWs c = false) :
    (c != e) = true := by
  rcases eq_or_ne c e with h | h
  · rw [h, he] at hc; cases hc
  · simp [h]

theorem head?_dropWhile_false (p : Char → Bool) :
    ∀ (l : List Char) (a : Char), (l.dropWhile p).head? = some a → p a = false := by
  intro l
  induction l with
  | nil => intro a h; simp at h
  | cons c cs ih =>
    intro a h
    rw [List.dropWhile_cons] at h
    by_cases hc : p c
    · rw [if_pos hc] at h
      exact ih a h
    · rw [if_neg hc] at h
      simp at h
      rw [← h]
      exact Bool.not_eq_true _ |>.mp hc

theorem mem_stripL {c : Char} {l : List Char} (h : c ∈ stripL l) : c ∈ l := by
  unfold stripL at h
  rw [List.mem_reverse] at h
  have h1 := (List.dropWhile_suffix isPyWs).subset h
  rw [List.mem_reverse] at h1
  exact (List.dropWhile_suffix isPyWs).subset h1

theorem stripL_getLast?_false {l : List Char} {a : Char}
    (h : (stripL l).getLast? = some a) : isPyWs a = false := by
  unfold stripL at h
  rw [List.getLast?_reverse] at h
  exact head?_dropWhile_false _ _ _ h

theorem stripL_head?_false {l : List Char} {a : Char}
    (h : (stripL l).head? = some a) : isPyWs a = false := by
  unfold stripL at h
  rw [List.head?_reverse] at h
  by_cases hd : ((l.dropWhile isPyWs).reverse.dropWhile isPyWs) = []
  · rw [hd] at h
    simp at h
  · rcases List.dropWhile_suffix (l := (l.dropWhile isPyWs).reverse) isPyWs with ⟨t, ht⟩
    have hg : ((l.dropWhile isPyWs).reverse).getLast? =
        (((l.dropWhile isPyWs).reverse).dropWhile isPyWs).getLast? := by
      conv_lhs => rw [← ht]
      exact List.getLast?_append_of_ne_nil t hd
    rw [← hg, List.getLast?_reverse] at h
    exact head?_dropWhile_false _ _ _ h

theorem stripL_eq_self {l : List Char}
    (h1 : ∀ a, l.head? = some a → isPyWs a = false)
    (h2 : ∀ a, l.getLast? = some a → isPyWs a = false) :
    stripL l = l := by
  unfold stripL
  have e1 : l.dropWhile isPyWs = l := by
    cases l with
    | nil => rfl
    | cons c cs =>
      rw [List.dropWhile_cons, h1 c rfl]
      simp
  rw [e1]
  have e2 : l.reverse.dropWhile isPyWs = l.reverse := by
    cases hl : l.reverse with
    | nil => rfl
    | cons c cs =>
      have hc : l.getLast? = some c := by
        rw [← List.head?_reverse, hl]; rfl
      rw [List.dropWhile_cons, h2 c hc]
      simp
  rw [e2, List.reverse_reverse]

theorem head?_filter_ws {p : Char → Bool} (hp : ∀ c, isPyWs c = false → p c = true)
    {y : List Char} (hy : ∀ b, y.head? = some b → isPyWs b = false) :
    ∀ a, (y.filter p).head? = some a → isPyWs a = false := by
  cases y with
  | nil => intro a h; simp at h
  | cons c cs =>
    intro a h
    have hc := hy c rfl
    rw [List.filter_cons_of_pos (hp c hc)] at h
    simp at h
    rw [← h]
    exact hc

theorem getLast?_filter_ws {p : Char → Bool} (hp : ∀ c, isPyWs c = false → p c = true)
    {y : List Char} (hy : ∀ b, y.getLast? = some b → isPyWs b = false) :
    ∀ a, (y.filter p).getLast? = some a → isPyWs a = false := by
  intro a h
  rw [← List.head?_reverse, ← List.filter_reverse] at h
  refine head?_filter_ws hp ?_ a h
  intro b hb
  rw [List.head?_reverse] at hb
  exact hy b hb

theorem normMList_idem (l : List Char) : normMList (normMList l) = normMList l := by
  have hrm : ∀ c : Char, isPyWs c = false →
      ((c != ' ') = true ∧ (c != '\t') = true ∧ (c != '\n') = true) := by
    intro c hc
    exact ⟨not_ws_bne c ' ' (by decide) hc, not_ws_bne c '\t' (by decide) hc,
      not_ws_bne c '\n' (by decide) hc⟩
  have hhead : ∀ a, (normMList l).head? = some a → isPyWs a = false := by
    intro a h
    unfold normMList removeChar at h
    refine head?_filter_ws (fun c hc => (hrm c hc).2.2) ?_ a h
    refine head?_filter_ws (fun c hc => (hrm c hc).2.1) ?_
    refine head?_filter_ws (fun c hc => (hrm c hc).1) ?_
    intro b hb
    exact stripL_head?_false hb
  have hlast : ∀ a, (normMList l).getLast? = some a → isPyWs a = false := by
    intro a h
    unfold normMList removeChar at h
    refine getLast?_filter_ws (fun c hc => (hrm c hc).2.2) ?_ a h
    refine getLast?_filter_ws (fun c hc => (hrm c hc).2.1) ?_
    refine getLast?_filter_ws (fun c hc => (hrm c hc).1) ?_
    intro b hb
    exact stripL_getLast?_false hb
  have hmem3 : ∀ c ∈ normMList l,
      ((c != ' ') = true ∧ (c != '\t') = true ∧ (c != '\n') = true) ∧ c ∈ lowerL l := by
    intro c hc
    unfold normMList removeChar at hc
    have m1 := List.mem_filter.mp hc
    have m2 := List.mem_filter.mp m1.1
    have m3 := List.mem_filter.mp m2.1
    exact ⟨⟨m3.2, m2.2, m1.2⟩, mem_stripL m3.1⟩
  have hfix : ∀ c ∈ normMList l, Char.toLower c = c := by
    intro c hc
    rcases List.mem_map.mp (hmem3 c hc).2 with ⟨d, _, hd⟩
    rw [← hd, toLower_toLower]
  calc normMList (normMList l)
      = removeChar '\n' (removeChar '\t' (removeChar ' '
          (stripL (lowerL (normMList l))))) := rfl
    _ = removeChar '\n' (removeChar '\t' (removeChar ' '
          (stripL (normMList l)))) := by
        rw [show lowerL (normMList l) = normMList l from by
          unfold lowerL
          rw [List.map_congr_left hfix, List.map_id']]
    _ = removeChar '\n' (removeChar '\t' (removeChar ' ' (normMList l))) := by
        rw [stripL_eq_self hhead hlast]
    _ = normMList l := by
        unfold removeChar
        rw [List.filter_eq_self.mpr (fun a ha => ((hmem3 a ha).1).1),
          List.filter_eq_self.mpr (fun a ha => ((hmem3 a ha).1).2.1),
          List.filter_eq_self.mpr (fun a ha => ((hmem3 a ha).1).2.2)]

theorem normVList_idem (l : List Char) : normVList (normVList l) = normVList l := by
  have hrm : ∀ c : Char, isPyWs c = false →
      ((c != ' ') = true ∧ (c != '\t') = true) := by
    intro c hc
    exact ⟨not_ws_bne c ' ' (by decide) hc, not_ws_bne c '\t' (by decide) hc⟩
  have hlow : ∀ b, (lowerL (stripL l)).head? = some b → isPyWs b = false := by
    intro b hb
    unfold lowerL at hb
    rw [List.head?_map] at hb
    cases hy : (stripL l).head? with
    | none => rw [hy] at hb; simp at hb
    | some b0 =>
      rw [hy] at hb
      simp at hb
      rw [← hb, isPyWs_toLower]
      exact stripL_head?_false hy
  have hlowLast : ∀ b, (lowerL (stripL l)).getLast? = some b → isPyWs b = false := by
    intro b hb
    unfold lowerL at hb
    rw [List.getLast?_map] at hb
    cases hy : (stripL l).getLast? with
    | none => rw [hy] at hb; simp at hb
    | some b0 =>
      rw [hy] at hb
      simp at hb
      rw [← hb, isPyWs_toLower]
      exact stripL_getLast?_false hy
  have hhead : ∀ a, (normVList l).head? = some a → isPyWs a = false := by
    intro a h
    unfold normVList removeChar at h
    refine head?_filter_ws (fun c hc => (hrm c hc).2) ?_ a h
    refine head?_filter_ws (fun c hc => (hrm c hc).1) ?_
    exact hlow
  have hlast : ∀ a, (normVList l).getLast? = some a → isPyWs a = false := by
    intro a h
    unfold normVList removeChar at h
    refine getLast?_filter_ws (fun c hc => (hrm c hc).2) ?_ a h
    refine getLast?_filter_ws (fun c hc => (hrm c hc).1) ?_
    exact hlowLast
  have hmem2 : ∀ c ∈ normVList l,
      ((c != ' ') = true ∧ (c != '\t') = true) ∧ c ∈ lowerL (stripL l) := by
    intro c hc
    unfold normVList removeChar at hc
    have m1 := List.mem_filter.mp hc
    have m2 := List.mem_filter.mp m1.1
    exact ⟨⟨m2.2, m1.2⟩, m2.1⟩
  have hfix : ∀ c ∈ normVList l, Char.toLower c = c := by
    intro c hc
    rcases List.mem_map.mp (hmem2 c hc).2 with ⟨d, _, hd⟩
    rw [← hd, toLower_toLower]
  calc normVList (normVList l)
      = removeChar '\t' (removeChar ' '
          (lowerL (stripL (normVList l)))) := rfl
    _ = removeChar '\t' (removeChar ' ' (lowerL (normVList l))) := by
        rw [stripL_eq_self hhead hlast]
    _ = removeChar '\t' (removeChar ' ' (normVList l)) := by
        rw [show lowerL (normVList l) = normVList l from by
          unfold lowerL
          rw [List.map_congr_left hfix, List.map_id']]
    _ = normVList l := by
        unfold removeChar
        rw [List.filter_eq_self.mpr (fun a ha => ((hmem2 a ha).1).1),
          List.filter_eq_self.mpr (fun a ha => ((hmem2 a ha).1).2)]

/-- C9: the text normalization used for taxonomy keys, keyword matching and
validation is idempotent, in both its matcher variant (strip, lower,
remove space/tab/newline) and its validator/loader variant (strip, lower,
remove space/tab). -/
theorem c9_normalize_idempotent (s : String) :
    normTextM (normTextM s) = normTextM s ∧ normTextV (normTextV s) = normTextV s :=
  ⟨congrArg String.mk (normMList_idem s.data),
   congrArg String.mk (normVList_idem s.data)⟩

theorem dedupPairs_cons_nil (t : String × String × String)
    (ts : List (String × String × String)) :
    dedupPairs (t :: ts) [] = t :: dedupPairs ts [(t.1, t.2.1)] := rfl

theorem validate_ok_of_lookup (m : TaxMapping) (r : ClassResult) (e : TaxEntry)
    (hmain : r.mainCategory ≠ ("" : String)) (hsub : r.subCategory ≠ ("" : String))
    (hkey : dictLookup m (String.mk (normVList r.mainCategory.data),
      String.mk (normVList r.subCategory.data)) = some e) :
    validate_classification_result m r =
      Except.ok { r with mainCategory := e.origMain, subCategory := e.origSub } := by
  unfold validate_classification_result
  rw [if_neg (by simp [hmain, hsub])]
  simp only [hkey]

/-- C1: every candidate classification result with nonempty `main_category`
and `sub_category` fields whose normalized pair is a key of the taxonomy
mapping is accepted by `validate_classification_result`, and both fields are
overwritten with the taxonomy's stored original-cased strings for that key
(provenance and extra fields preserved), so the returned result never
carries the raw matcher/LLM spelling. -/
theorem c1_validate_canonicalizes (m : TaxMapping) (r : ClassResult) (e : TaxEntry)
    (hmain : r.mainCategory ≠ ("" : String)) (hsub : r.subCategory ≠ ("" : String))
    (hkey : dictLookup m (String.mk (normVList r.mainCategory.data),
      String.mk (normVList r.subCategory.data)) = some e) :
    validate_classification_result m r =
      Except.ok { r with mainCategory := e.origMain, subCategory := e.origSub } :=
  validate_ok_of_lookup m r e hmain hsub hkey

/-- Witness for C1 on the spec's own casing/whitespace variation example. -/
theorem c1_validate_canonicalizes_witness :
    validate_classification_result
        (loadRows [⟨"自动化设备", "PLC/IO模块/柜体", "plc", "", ""⟩])
        ⟨"自动化 设备", "Plc / io模块 /柜体", "llm", [("confidence", "high")]⟩ =
      Except.ok ⟨"自动化设备", "PLC/IO模块/柜体", "llm", [("confidence", "high")]⟩ :=
  c1_validate_canonicalizes _ _ ⟨"自动化设备", "PLC/IO模块/柜体", "plc", "", ""⟩
    (by decide) (by decide) (by rfl)

/-- C4: the keyword matcher consults `material_name` first and stops there
whenever it yields at least one match: the result is exactly the deduplicated
`material_name` matches, whatever the `model`, `brand` and `raw_material`
fields hold (those fields are not consulted and never merged in). -/
theorem c4_field_precedence (m : TaxMapping) (r : MaterialRecord)
    (h : match_keywords m r.materialName ≠ ([] : List (String × String × String)))
    (mo br ma : String) :
    match_by_multiple_fields m { r with model := mo, brand := br, material := ma } =
      dedupPairs (match_keywords m r.materialName) [] := by
  have hne : dedupPairs (match_keywords m r.materialName) [] ≠ [] := by
    cases hmk : match_keywords m r.materialName with
    | nil => exact absurd hmk h
    | cons t ts =>
      rw [dedupPairs_cons_nil]
      simp
  simp only [match_by_multiple_fields]
  rw [if_pos hne]

/-- Witness for C4: `material_name` matches entry A (keyword `alpha`),
`model` matches entry B (keyword `beta`); only A's match is returned. -/
theorem c4_field_precedence_witness :
    match_by_multiple_fields
        (loadRows [⟨"MA", "SA", "alpha", "", ""⟩, ⟨"MB", "SB", "beta", "", ""⟩])
        ⟨"x alpha y", "beta", "", ""⟩ =
      [("MA", "SA", "")] :=
  (c4_field_precedence _ ⟨"x alpha y", "b0", "b1", "b2"⟩ (by decide)
    ("beta") ("") ("")).trans (by rfl)

/-- C7: the loader never yields an empty mapping silently: a source whose
rows produce zero entries makes `load_classification_standards` fail, and a
successful load always returns at least one entry. -/
theorem c7_empty_taxonomy_fatal (rows : List Row) :
    (loadRows rows = [] → (load_classification_standards rows).isOk = false) ∧
    (∀ m : TaxMapping, load_classification_standards rows = Except.ok m → m ≠ []) := by
  constructor
  · intro h
    simp [load_classification_standards, h, Except.isOk, Except.toBool]
  · intro m hm
    unfold load_classification_standards at hm
    by_cases h : loadRows rows = ([] : TaxMapping)
    · simp [h] at hm
    · simp [h] at hm
      rw [← hm]
      exact h

/-- Witness for C7 at the empty source. -/
theorem c7_empty_taxonomy_fatal_witness :
    (load_classification_standards []).isOk = false :=
  (c7_empty_taxonomy_fatal []).1 rfl

/-- C8: `classify_batch` returns one outcome per input record, in input
order, wrapping the original record with its result or its error message (a
failing record never aborts the rest), and performs the inter-record delay
between consecutive records but not after the last one. -/
theorem c8_batch_isolation {M R : Type} (f : M → Except String R) (ms : List M) :
    (classify_batch f ms).1 = ms.map (batchWrap f) ∧
    (classify_batch f ms).2 = ms.length - 1 := by
  induction ms with
  | nil => exact ⟨rfl, rfl⟩
  | cons m rest ih =>
    cases rest with
    | nil => exact ⟨rfl, rfl⟩
    | cons m2 rest2 =>
      constructor
      · show batchWrap f m :: (classify_batch f (m2 :: rest2)).1 = _
        rw [ih.1]
        rfl
      · show (classify_batch f (m2 :: rest2)).2 + 1 = _
        rw [ih.2]
        simp

theorem entryBrandMatches_eq_amended (nb : List Char) (brands : String) :
    entryBrandMatches nb brands = amendedBrandMatches nb brands := by
  by_cases h : brands = ("" : String)
  · subst h
    rfl
  · unfold entryBrandMatches amendedBrandMatches
    rw [if_neg h]

/-- C5 (amended): the disambiguation never fails once the keyword pass
matched, and behaves exactly as described with the empty-brand guards: one
candidate is returned directly; several candidates are filtered by the
bidirectional-substring brand rule over nonempty normalized brands, taking
the first brand match, unless the normalized record brand is empty, in which
case the first keyword candidate is returned unconditionally. -/
theorem c5_brand_disambiguation (m : TaxMapping) (r : MaterialRecord) :
    match_by_keywords_and_brand m r = match_by_keywords_and_brand_amendedModel m r ∧
    (match_by_multiple_fields m r ≠ [] → (match_by_keywords_and_brand m r).isSome = true) := by
  have heq : match_by_keywords_and_brand m r = match_by_keywords_and_brand_amendedModel m r := by
    unfold match_by_keywords_and_brand match_by_keywords_and_brand_amendedModel
    cases hkm : match_by_multiple_fields m r with
    | nil => rfl
    | cons t rest =>
      cases rest with
      | nil => rfl
      | cons u us =>
        by_cases hnb : normMList r.brand.data = []
        · simp only [hnb]
          rfl
        · simp only [if_neg hnb, entryBrandMatches_eq_amended]
          cases hf : (t :: u :: us).find?
              (fun v => amendedBrandMatches (normMList r.brand.data) v.2.2) with
          | none => simp [hf]
          | some w => simp [hf]
  refine ⟨heq, ?_⟩
  intro hne
  rw [heq]
  unfold match_by_keywords_and_brand_amendedModel
  cases hkm : match_by_multiple_fields m r with
  | nil => exact absurd hkm hne
  | cons t rest =>
    cases rest with
    | nil => rfl
    | cons u us =>
      by_cases hnb : normMList r.brand.data = []
      · simp [hnb]
      · simp [hnb]

/-- Witness for C5 (amended) at a two-candidate taxonomy with a matching
record brand. -/
theorem c5_brand_disambiguation_witness :
    (match_by_keywords_and_brand
        (loadRows [⟨"M1", "S1", "k", "", ""⟩, ⟨"M2", "S2", "k", "", "b"⟩])
        ⟨"k", "", "b", ""⟩).isSome = true :=
  (c5_brand_disambiguation
    (loadRows [⟨"M1", "S1", "k", "", ""⟩, ⟨"M2", "S2", "k", "", "b"⟩])
    ⟨"k", "", "b", ""⟩).2 (by decide)

/-- C5 counterexample: with two keyword candidates, an empty record brand and
a second candidate carrying a brand list, the code skips the brand pass and
returns the first keyword candidate, while the claim's unguarded
bidirectional-substring rule (an empty normalized record brand is a
substring of every brand) selects the second candidate. -/
theorem c5_counterexample :
    match_by_keywords_and_brand
        (loadRows [⟨"M1", "S1", "k", "", ""⟩, ⟨"M2", "S2", "k", "", "b"⟩])
        ⟨"k", "", "", ""⟩ = some ("M1", "S1") ∧
    match_by_keywords_and_brand_specModel
        (loadRows [⟨"M1", "S1", "k", "", ""⟩, ⟨"M2", "S2", "k", "", "b"⟩])
        ⟨"k", "", "", ""⟩ = some ("M2", "S2") := by
  exact ⟨rfl, rfl⟩

theorem dictLookup_dictInsert (m : TaxMapping) (k0 k : String × String) (v : TaxEntry) :
    dictLookup (dictInsert m k0 v) k = if k = k0 then some v else dictLookup m k := by
  induction m with
  | nil =>
    by_cases h : k = k0
    · simp [dictInsert, dictLookup, h]
    · have h' : ¬ k0 = k := fun hh => h hh.symm
      simp [dictInsert, dictLookup, h, h']
  | cons kv rest ih =>
    obtain ⟨k1, v1⟩ := kv
    by_cases h1 : k1 = k0
    · subst h1
      by_cases h : k = k1
      · subst h
        simp [dictInsert, dictLookup]
      · have h' : ¬ k1 = k := fun hh => h hh.symm
        simp [dictInsert, dictLookup, h, h']
    · by_cases h2 : k1 = k
      · subst h2
        simp [dictInsert, dictLookup, h1]
      · simp [dictInsert, dictLookup, h1, h2, ih]

theorem exists_split_cons {α : Type} (a : α) (l : List α)
    (A : List α → α → List α → Prop) :
    (∃ pre x post, a :: l = pre ++ x :: post ∧ A pre x post) ↔
      (A [] a l ∨ ∃ pre x post, l = pre ++ x :: post ∧ A (a :: pre) x post) := by
  constructor
  · rintro ⟨pre, x, post, heq, hA⟩
    cases pre with
    | nil =>
      simp at heq
      left
      rw [heq.1, heq.2]
      exact hA
    | cons p ps =>
      simp at heq
      right
      refine ⟨ps, x, post, heq.2, ?_⟩
      rw [heq.1]
      exact hA
  · rintro (hA | ⟨pre, x, post, heq, hA⟩)
    · exact ⟨[], a, l, rfl, hA⟩
    · exact ⟨a :: pre, x, post, by rw [heq]; rfl, hA⟩

theorem lookup_foldl_loadStep (rows : List Row) :
    ∀ (acc : String × TaxMapping) (k : String × String),
    (dictLookup ((rows.foldl loadStep acc).2) k).isSome = true ↔
      ((dictLookup acc.2 k).isSome = true ∨
        ∃ pre row post,
          rows = pre ++ row :: post ∧
          ((currentMainFrom acc.1 (pre ++ [row]) ≠ ("" : String) ∧
            procCell row.subCat ≠ ("" : String)) ∧
           k = (String.mk (normVList (currentMainFrom acc.1 (pre ++ [row])).data),
                String.mk (normVList (procCell row.subCat).data)))) := by
  induction rows with
  | nil =>
    intro acc k
    simp
  | cons row0 rest ih =>
    intro acc k
    rw [show (row0 :: rest).foldl loadStep acc = rest.foldl loadStep (loadStep acc row0) from rfl,
        ih (loadStep acc row0) k,
        exists_split_cons row0 rest (fun pre x post =>
          (currentMainFrom acc.1 (pre ++ [x]) ≠ ("" : String) ∧
            procCell x.subCat ≠ ("" : String)) ∧
          k = (String.mk (normVList (currentMainFrom acc.1 (pre ++ [x])).data),
               String.mk (normVList (procCell x.subCat).data)))]
    have hcm : currentMainFrom acc.1 [row0] =
        (if procCell row0.mainCat ≠ ("" : String) then procCell row0.mainCat else acc.1) := rfl
    have hstep : (dictLookup (loadStep acc row0).2 k).isSome = true ↔
        ((dictLookup acc.2 k).isSome = true ∨
          ((currentMainFrom acc.1 [row0] ≠ ("" : String) ∧
            procCell row0.subCat ≠ ("" : String)) ∧
           k = (String.mk (normVList (currentMainFrom acc.1 [row0]).data),
                String.mk (normVList (procCell row0.subCat).data)))) := by
      rw [hcm]
      simp only [loadStep]
      set cm := (if procCell row0.mainCat ≠ ("" : String) then procCell row0.mainCat
        else acc.1) with hcmdef
      by_cases hc : (cm ≠ ("" : String) ∧ procCell row0.subCat ≠ ("" : String))
      · rw [if_pos hc, dictLookup_dictInsert]
        by_cases hk : k = (String.mk (normVList cm.data),
            String.mk (normVList (procCell row0.subCat).data))
        · rw [if_pos hk]
          constructor
          · intro _
            exact Or.inr ⟨hc, hk⟩
          · intro _
            rfl
        · rw [if_neg hk]
          constructor
          · intro hl
            exact Or.inl hl
          · rintro (hl | ⟨_, hk'⟩)
            · exact hl
            · exact absurd hk' hk
      · rw [if_neg hc]
        constructor
        · intro hl
          exact Or.inl hl
        · rintro (hl | ⟨hc', _⟩)
          · exact hl
          · exact absurd hc' hc
    have hfst : (loadStep acc row0).1 =
        (if procCell row0.mainCat ≠ ("" : String) then procCell row0.mainCat else acc.1) := by
      simp only [loadStep]
      split <;> split <;> rfl
    have hshift : ∀ (pre : List Row) (x : Row),
        currentMainFrom (loadStep acc row0).1 (pre ++ [x]) =
          currentMainFrom acc.1 ((row0 :: pre) ++ [x]) := by
      intro pre x
      rw [hfst]
      rfl
    simp only [hshift]
    rw [hstep]
    constructor
    · rintro ((h | h) | h)
      · exact Or.inl h
      · exact Or.inr (Or.inl h)
      · exact Or.inr (Or.inr h)
    · rintro (h | (h | h))
      · exact Or.inl (Or.inl h)
      · exact Or.inl (Or.inr h)
      · exact Or.inr h

/-- C6: a key is present in the loaded taxonomy exactly when some row
contributes it: the row's position splits the source as `pre ++ row :: post`,
the current main category after `pre ++ [row]` (carried forward from the
last row with a nonempty main-category cell, the `nan` sentinel counting as
empty) is set, and the row's own sub-category cell is nonempty; the key is
the normalized pair of that current main category and that sub-category. -/
theorem c6_loader_contribution (rows : List Row) (k : String × String) :
    (dictLookup (loadRows rows) k).isSome = true ↔
      ∃ pre row post,
        rows = pre ++ row :: post ∧
        ((currentMainAfter (pre ++ [row]) ≠ ("" : String) ∧
          procCell row.subCat ≠ ("" : String)) ∧
         k = (String.mk (normVList (currentMainAfter (pre ++ [row])).data),
              String.mk (normVList (procCell row.subCat).data))) := by
  have h := lookup_foldl_loadStep rows (("" : String), ([] : TaxMapping)) k
  simpa [loadRows, currentMainAfter, dictLookup] using h

/-- Witness for C6: the second row has an empty main-category cell and
contributes under the first row's main category, carried forward. -/
theorem c6_loader_contribution_witness :
    (dictLookup (loadRows [⟨"M1", "S1", "", "", ""⟩, ⟨"", "S2", "", "", ""⟩])
      ("m1", "s2")).isSome = true :=
  (c6_loader_contribution [⟨"M1", "S1", "", "", ""⟩, ⟨"", "S2", "", "", ""⟩]
      ("m1", "s2")).mpr
    ⟨[⟨"M1", "S1", "", "", ""⟩], ⟨"", "S2", "", "", ""⟩, [], rfl,
      ⟨by decide, by decide⟩, by decide⟩

theorem callApiGo_counter_spec {R : Type} (oracle : Nat → Option R) (maxFail : Nat) :
    ∀ (rem attempt fails : Nat),
      ((callApiGo oracle maxFail rem attempt fails).2.1 = none →
        (callApiGo oracle maxFail rem attempt fails).1 =
          fails + ((callApiGo oracle maxFail rem attempt fails).2.2 - attempt) ∧
        attempt ≤ (callApiGo oracle maxFail rem attempt fails).2.2) ∧
      (∀ r : R, (callApiGo oracle maxFail rem attempt fails).2.1 = some r →
        (callApiGo oracle maxFail rem attempt fails).1 = 0) := by
  intro rem
  induction rem with
  | zero =>
    intro attempt fails
    constructor
    · intro _
      simp [callApiGo]
    · intro r hr
      simp [callApiGo] at hr
  | succ rem ih =>
    intro attempt fails
    cases ho : oracle attempt with
    | some r =>
      constructor
      · intro hn
        simp [callApiGo, ho] at hn
      · intro r' _
        simp [callApiGo, ho]
    | none =>
      by_cases hf : maxFail ≤ fails + 1
      · constructor
        · intro _
          simp [callApiGo, ho, hf]
        · intro r hr
          simp [callApiGo, ho, hf] at hr
      · by_cases hrem : 0 < rem
        · have heq : callApiGo oracle maxFail (rem + 1) attempt fails =
              callApiGo oracle maxFail rem (attempt + 1) (fails + 1) := by
            simp [callApiGo, ho, hf, hrem]
          rw [heq]
          constructor
          · intro hn
            have h1 := ((ih (attempt + 1) (fails + 1)).1) hn
            constructor
            · omega
            · omega
          · exact (ih (attempt + 1) (fails + 1)).2
        · constructor
          · intro _
            simp [callApiGo, ho, hf, hrem]
          · intro r hr
            simp [callApiGo, ho, hf, hrem] at hr

/-- C3 (amended): the consecutive-failure counter increments on every failed
attempt and resets to zero on any successful attempt (a raising call ends
with the entry counter plus the attempts it consumed; a returning call ends
with counter 0); once the counter has reached the threshold, a subsequent
FAILED attempt makes the call raise immediately, consuming exactly one
attempt of the per-call budget — but the resolver does not fail permanently:
the next call still performs a real attempt, and a successful attempt
returns normally and resets the counter. -/
theorem c3_failure_ceiling {R : Type} (oracle : Nat → Option R)
    (maxRetries maxFail fails : Nat) :
    (((call_deepseek_api oracle maxRetries maxFail fails).2.1 = none →
        (call_deepseek_api oracle maxRetries maxFail fails).1 =
          fails + (call_deepseek_api oracle maxRetries maxFail fails).2.2) ∧
      (∀ r : R, (call_deepseek_api oracle maxRetries maxFail fails).2.1 = some r →
        (call_deepseek_api oracle maxRetries maxFail fails).1 = 0)) ∧
    (0 < maxRetries → oracle 0 = none → maxFail ≤ fails + 1 →
      call_deepseek_api oracle maxRetries maxFail fails = (fails + 1, none, 1)) ∧
    (∀ r : R, 0 < maxRetries → oracle 0 = some r →
      call_deepseek_api oracle maxRetries maxFail fails = (0, some r, 1)) := by
  refine ⟨⟨?_, ?_⟩, ?_, ?_⟩
  · intro hn
    have h := ((callApiGo_counter_spec oracle maxFail maxRetries 0 fails).1) hn
    simpa using h.1
  · exact (callApiGo_counter_spec oracle maxFail maxRetries 0 fails).2
  · intro hmr ho hf
    cases maxRetries with
    | zero => omega
    | succ rem =>
      unfold call_deepseek_api
      simp [callApiGo, ho, hf]
  · intro r hmr ho
    cases maxRetries with
    | zero => omega
    | succ rem =>
      unfold call_deepseek_api
      simp [callApiGo, ho]

/-- Witness for C3 (amended): threshold 5, counter at 4: one more failed
attempt raises at once, consuming one attempt only. -/
theorem c3_failure_ceiling_witness :
    call_deepseek_api (fun _ => (none : Option Nat)) 3 5 4 = (5, none, 1) :=
  (c3_failure_ceiling (fun _ => (none : Option Nat)) 3 5 4).2.1
    (by decide) rfl (by decide)

/-- C3 counterexample: MAX_RETRIES = 3, threshold 5.  Two all-failing calls
drive the process-wide counter to 5, the second call raising after only two
of its three attempts.  The next call still performs a real attempt, and
since that attempt succeeds the call returns a result (resetting the counter
to 0) instead of raising immediately: the resolver does not fail permanently
once the counter has reached the threshold. -/
theorem c3_counterexample :
    runCalls 3 5 [fun _ => (none : Option Nat), fun _ => none, fun _ => some 7] 0 =
      ([(none, 3), (none, 2), (some 7, 1)], 0) ∧
    call_deepseek_api (fun _ => some 7) 3 5 5 = (0, some 7, 1) :=
  ⟨rfl, rfl⟩

theorem mem_dictInsert {m : TaxMapping} {k : String × String} {v : TaxEntry} :
    ∀ {kv}, kv ∈ dictInsert m k v → kv = (k, v) ∨ kv ∈ m := by
  induction m with
  | nil =>
    intro kv h
    simp [dictInsert] at h
    exact Or.inl h
  | cons kv1 rest ih =>
    intro kv h
    obtain ⟨k1, v1⟩ := kv1
    by_cases h1 : k1 = k
    · rw [dictInsert, if_pos h1] at h
      rcases List.mem_cons.mp h with h2 | h2
      · exact Or.inl h2
      · exact Or.inr (List.mem_cons_of_mem _ h2)
    · rw [dictInsert, if_neg h1] at h
      rcases List.mem_cons.mp h with h2 | h2
      · exact Or.inr (h2 ▸ List.mem_cons_self _ _)
      · rcases ih h2 with h3 | h3
        · exact Or.inl h3
        · exact Or.inr (List.mem_cons_of_mem _ h3)

theorem dictInsert_keys_nodup {m : TaxMapping} (h : (m.map Prod.fst).Nodup)
    (k : String × String) (v : TaxEntry) :
    ((dictInsert m k v).map Prod.fst).Nodup := by
  induction m with
  | nil => simp [dictInsert]
  | cons kv1 rest ih =>
    obtain ⟨k1, v1⟩ := kv1
    have h' : k1 ∉ rest.map Prod.fst ∧ (rest.map Prod.fst).Nodup := by
      rw [List.map_cons, List.nodup_cons] at h
      exact h
    by_cases h1 : k1 = k
    · rw [dictInsert, if_pos h1, List.map_cons, List.nodup_cons]
      rw [← h1]
      exact h'
    · rw [dictInsert, if_neg h1, List.map_cons, List.nodup_cons]
      refine ⟨?_, ih h'.2⟩
      intro hmem
      rcases List.mem_map.mp hmem with ⟨kv2, hkv2, hfst⟩
      rcases mem_dictInsert hkv2 with h2 | h2
      · rw [h2] at hfst
        exact h1 hfst.symm
      · exact h'.1 (List.mem_map.mpr ⟨kv2, h2, hfst⟩)

theorem dictLookup_of_mem {m : TaxMapping} (hnd : (m.map Prod.fst).Nodup)
    {k : String × String} {v : TaxEntry} (h : (k, v) ∈ m) :
    dictLookup m k = some v := by
  induction m with
  | nil => simp at h
  | cons kv1 rest ih =>
    obtain ⟨k1, v1⟩ := kv1
    have hnd' : k1 ∉ rest.map Prod.fst ∧ (rest.map Prod.fst).Nodup := by
      rw [List.map_cons, List.nodup_cons] at hnd
      exact hnd
    rcases List.mem_cons.mp h with h2 | h2
    · rw [Prod.mk.injEq] at h2
      rw [dictLookup, if_pos h2.1.symm, h2.2]
    · have hk1 : ¬ k1 = k := by
        intro he
        subst he
        exact hnd'.1 (List.mem_map.mpr ⟨(k1, v), h2, rfl⟩)
      rw [dictLookup, if_neg hk1]
      exact ih hnd'.2 h2

theorem foldl_loadStep_entry_inv (rows : List Row) :
    ∀ (acc : String × TaxMapping),
      (∀ kv ∈ acc.2,
        kv.1 = (String.mk (normVList kv.2.origMain.data),
                String.mk (normVList kv.2.origSub.data)) ∧
        kv.2.origMain ≠ ("" : String) ∧ kv.2.origSub ≠ ("" : String)) →
      ∀ kv ∈ (rows.foldl loadStep acc).2,
        kv.1 = (String.mk (normVList kv.2.origMain.data),
                String.mk (normVList kv.2.origSub.data)) ∧
        kv.2.origMain ≠ ("" : String) ∧ kv.2.origSub ≠ ("" : String) := by
  induction rows with
  | nil =>
    intro acc hacc
    exact hacc
  | cons row rest ih =>
    intro acc hacc
    refine ih (loadStep acc row) ?_
    intro kv hkv
    simp only [loadStep] at hkv
    by_cases hc : ((if procCell row.mainCat ≠ ("" : String) then procCell row.mainCat
          else acc.1) ≠ ("" : String) ∧ procCell row.subCat ≠ ("" : String))
    · rw [if_pos hc] at hkv
      rcases mem_dictInsert hkv with h2 | h2
      · rw [h2]
        exact ⟨rfl, hc.1, hc.2⟩
      · exact hacc kv h2
    · rw [if_neg hc] at hkv
      exact hacc kv hkv

theorem loadRows_entry_inv (rows : List Row) :
    ∀ kv ∈ loadRows rows,
      kv.1 = (String.mk (normVList kv.2.origMain.data),
              String.mk (normVList kv.2.origSub.data)) ∧
      kv.2.origMain ≠ ("" : String) ∧ kv.2.origSub ≠ ("" : String) :=
  foldl_loadStep_entry_inv rows (("" : String), ([] : TaxMapping)) (by simp)

theorem foldl_loadStep_keys_nodup (rows : List Row) :
    ∀ (acc : String × TaxMapping), (acc.2.map Prod.fst).Nodup →
      (((rows.foldl loadStep acc).2).map Prod.fst).Nodup := by
  induction rows with
  | nil =>
    intro acc hacc
    exact hacc
  | cons row rest ih =>
    intro acc hacc
    refine ih (loadStep acc row) ?_
    simp only [loadStep]
    by_cases hc : ((if procCell row.mainCat ≠ ("" : String) then procCell row.mainCat
          else acc.1) ≠ ("" : String) ∧ procCell row.subCat ≠ ("" : String))
    · rw [if_pos hc]
      exact dictInsert_keys_nodup hacc _ _
    · rw [if_neg hc]
      exact hacc

theorem loadRows_keys_nodup (rows : List Row) :
    (((loadRows rows)).map Prod.fst).Nodup :=
  foldl_loadStep_keys_nodup rows (("" : String), ([] : TaxMapping)) (by simp)

theorem mem_match_keywords {m : TaxMapping} {name : String}
    {t : String × String × String} (h : t ∈ match_keywords m name) :
    ∃ kv ∈ m, t = (kv.2.origMain, kv.2.origSub, kv.2.commonBrands) := by
  unfold match_keywords at h
  by_cases h1 : name = ("" : String)
  · rw [if_pos h1] at h
    simp at h
  · rw [if_neg h1] at h
    by_cases h2 : normMList name.data = []
    · rw [if_pos h2] at h
      simp at h
    · rw [if_neg h2] at h
      rcases List.mem_flatMap.mp h with ⟨kv, hkv, hmem⟩
      refine ⟨kv, hkv, ?_⟩
      unfold entryKeywordMatches at hmem
      by_cases h3 : kv.2.keywords = ("" : String)
      · rw [if_pos h3] at hmem
        simp at hmem
      · rw [if_neg h3] at hmem
        rcases List.mem_filterMap.mp hmem with ⟨kw, _, heq⟩
        by_cases h4 : normMList kw = []
        · rw [if_pos h4] at heq
          cases heq
        · rw [if_neg h4] at heq
          by_cases h5 : isSubList (normMList kw) (normMList name.data) = true
          · rw [if_pos h5] at heq
            cases heq
            rfl
          · rw [if_neg h5] at heq
            cases heq

theorem mem_dedupPairs :
    ∀ {l : List (String × String × String)} {seen : List (String × String)}
      {t : String × String × String}, t ∈ dedupPairs l seen → t ∈ l := by
  intro l
  induction l with
  | nil =>
    intro seen t h
    simp [dedupPairs] at h
  | cons u us ih =>
    intro seen t h
    rw [dedupPairs] at h
    by_cases hc : seen.contains (u.1, u.2.1)
    · rw [if_pos hc] at h
      exact List.mem_cons_of_mem _ (ih h)
    · rw [if_neg hc] at h
      rcases List.mem_cons.mp h with h2 | h2
      · exact h2 ▸ List.mem_cons_self _ _
      · exact List.mem_cons_of_mem _ (ih h2)

theorem mem_match_by_multiple_fields {m : TaxMapping} {r : MaterialRecord}
    {t : String × String × String} (h : t ∈ match_by_multiple_fields m r) :
    ∃ kv ∈ m, t = (kv.2.origMain, kv.2.origSub, kv.2.commonBrands) := by
  simp only [match_by_multiple_fields] at h
  split at h
  · exact mem_match_keywords (mem_dedupPairs h)
  · split at h
    · exact mem_match_keywords (mem_dedupPairs h)
    · split at h
      · exact mem_match_keywords (mem_dedupPairs h)
      · exact mem_match_keywords (mem_dedupPairs h)

theorem match_kb_provenance {m : TaxMapping} {r : MaterialRecord}
    {p : String × String} (hp : match_by_keywords_and_brand m r = some p) :
    ∃ kv ∈ m, p = (kv.2.origMain, kv.2.origSub) := by
  unfold match_by_keywords_and_brand at hp
  cases hkm : match_by_multiple_fields m r with
  | nil =>
    rw [hkm] at hp
    cases hp
  | cons t rest =>
    rw [hkm] at hp
    have hprov : ∀ u ∈ t :: rest, ∃ kv ∈ m, pairOf u = (kv.2.origMain, kv.2.origSub) := by
      intro u hu
      rcases mem_match_by_multiple_fields (hkm ▸ hu) with ⟨kv, hkv, he⟩
      exact ⟨kv, hkv, by rw [he]; rfl⟩
    cases rest with
    | nil =>
      simp at hp
      exact hp ▸ hprov t (List.mem_cons_self _ _)
    | cons u us =>
      by_cases hnb : normMList r.brand.data = []
      · simp only [if_pos hnb] at hp
        simp at hp
        exact hp ▸ hprov t (List.mem_cons_self _ _)
      · simp only [if_neg hnb] at hp
        cases hf : (t :: u :: us).find?
            (fun w => entryBrandMatches (normMList r.brand.data) w.2.2) with
        | some w =>
          rw [hf] at hp
          simp at hp
          exact hp ▸ hprov w (List.mem_of_find?_eq_some hf)
        | none =>
          rw [hf] at hp
          simp at hp
          exact hp ▸ hprov t (List.mem_cons_self _ _)

/-- C10: every (main, sub) pair returned by the keyword/brand matcher over a
loaded taxonomy passes validation unchanged: the matcher only returns the
original-cased strings stored in the mapping, whose validator normalization
reproduces exactly the key they are stored under, so the local-match path
never fails with an unknown-category or incomplete-result error and the
canonicalizing overwrite is the identity. -/
theorem c10_local_match_validates (rows : List Row) (mp : TaxMapping)
    (hload : load_classification_standards rows = Except.ok mp)
    (r : MaterialRecord) (p : String × String)
    (hmatch : match_by_keywords_and_brand mp r = some p)
    (src : String) (extra : List (String × String)) :
    validate_classification_result mp ⟨p.1, p.2, src, extra⟩ =
      Except.ok ⟨p.1, p.2, src, extra⟩ := by
  have hmp : mp = loadRows rows := by
    unfold load_classification_standards at hload
    by_cases h : loadRows rows = ([] : TaxMapping)
    · simp [h] at hload
    · simp [h] at hload
      exact hload.symm
  subst hmp
  obtain ⟨kv, hkv, hpe⟩ := match_kb_provenance hmatch
  have hinv := loadRows_entry_inv rows kv hkv
  have hnd := loadRows_keys_nodup rows
  have hp1 : p.1 = kv.2.origMain := by rw [hpe]
  have hp2 : p.2 = kv.2.origSub := by rw [hpe]
  have hkey : dictLookup (loadRows rows)
      (String.mk (normVList p.1.data), String.mk (normVList p.2.data)) = some kv.2 := by
    rw [hp1, hp2, ← hinv.1]
    exact dictLookup_of_mem hnd hkv
  have hres := validate_ok_of_lookup (loadRows rows) ⟨p.1, p.2, src, extra⟩ kv.2
    (by rw [hp1]; exact hinv.2.1) (by rw [hp2]; exact hinv.2.2) hkey
  rw [hres, ← hp1, ← hp2]

/-- Witness for C10 at a one-entry taxonomy and a matching record. -/
theorem c10_local_match_validates_witness :
    validate_classification_result (loadRows [⟨"M1", "S1", "plc", "", ""⟩])
        ⟨"M1", "S1", "keyword_matcher", []⟩ =
      Except.ok ⟨"M1", "S1", "keyword_matcher", []⟩ :=
  c10_local_match_validates [⟨"M1", "S1", "plc", "", ""⟩] _ rfl
    ⟨"a PLC x", "", "", ""⟩ ("M1", "S1") (by rfl) ("keyword_matcher") []

theorem parseStringBody_plain :
    ∀ (l : List Char), (∀ c ∈ l, c ≠ '"' ∧ c ≠ '\\') →
      ∀ rest, parseStringBody (l ++ '"' :: rest) = some (l, rest) := by
  intro l
  induction l with
  | nil =>
    intro _ rest
    rw [List.nil_append, parseStringBody.eq_def]
    simp
  | cons c cs ih =>
    intro h rest
    have hc := h c (List.mem_cons_self _ _)
    have hrec := ih (fun d hd => h d (List.mem_cons_of_mem _ hd)) rest
    show parseStringBody (c :: (cs ++ '"' :: rest)) = some (c :: cs, rest)
    rw [parseStringBody.eq_def]
    simp [hc.1, hc.2, hrec]

theorem parseVal_strLit (f : Nat) (v : String) (hv : plainChars v) (rest : List Char) :
    parseVal (Nat.succ f) (strLit v ++ rest) = some (Json.str v, rest) := by
  have hs : strLit v ++ rest = '"' :: (v.data ++ '"' :: rest) := by
    simp [strLit]
  have hsb := parseStringBody_plain v.data (fun c hc => ⟨(hv c hc).1, (hv c hc).2.1⟩) rest
  rw [hs]
  have hskip : skipWs ('"' :: (v.data ++ '"' :: rest)) = '"' :: (v.data ++ '"' :: rest) := rfl
  simp only [parseVal, hskip, hsb, if_true]

theorem parseObjTail_last (f : Nat) (key v : String) (hk : plainChars key)
    (hv : plainChars v) (rest : List Char) :
    parseObjTail (f + 2) (strLit key ++ ':' :: strLit v ++ '}' :: rest) =
      some ([(key, Json.str v)], rest) := by
  have hs : strLit key ++ ':' :: strLit v ++ '}' :: rest =
      '"' :: (key.data ++ '"' :: (':' :: (strLit v ++ '}' :: rest))) := by
    simp [strLit]
  have hsb := parseStringBody_plain key.data (fun c hc => ⟨(hk c hc).1, (hk c hc).2.1⟩)
    (':' :: (strLit v ++ '}' :: rest))
  rw [hs]
  have h1 : skipWs (':' :: (strLit v ++ '}' :: rest)) = ':' :: (strLit v ++ '}' :: rest) := rfl
  have h2 : parseVal (f + 1) (strLit v ++ '}' :: rest) = some (Json.str v, '}' :: rest) :=
    parseVal_strLit f v hv ('}' :: rest)
  have h3 : skipWs ('}' :: rest) = '}' :: rest := rfl
  show parseObjTail (Nat.succ (f + 1)) _ = _
  simp only [parseObjTail, hsb, h1, h2, h3]

theorem parseObjTail_cons (f : Nat) (key v : String) (hk : plainChars key)
    (hv : plainChars v) (more : List Char) :
    parseObjTail (f + 2) (strLit key ++ ':' :: strLit v ++ ',' :: '"' :: more) =
      Option.map (fun p => ((key, Json.str v) :: p.1, p.2))
        (parseObjTail (f + 1) ('"' :: more)) := by
  have hs : strLit key ++ ':' :: strLit v ++ ',' :: '"' :: more =
      '"' :: (key.data ++ '"' :: (':' :: (strLit v ++ ',' :: '"' :: more))) := by
    simp [strLit]
  have hsb := parseStringBody_plain key.data (fun c hc => ⟨(hk c hc).1, (hk c hc).2.1⟩)
    (':' :: (strLit v ++ ',' :: '"' :: more))
  obtain ⟨g, hg⟩ : ∃ g, g = f + 1 := ⟨f + 1, rfl⟩
  have h1 : skipWs (':' :: (strLit v ++ ',' :: '"' :: more)) =
      ':' :: (strLit v ++ ',' :: '"' :: more) := rfl
  have h2 : parseVal g (strLit v ++ ',' :: '"' :: more) =
      some (Json.str v, ',' :: '"' :: more) := by
    rw [hg]
    exact parseVal_strLit f v hv (',' :: '"' :: more)
  have h3 : skipWs (',' :: '"' :: more) = ',' :: '"' :: more := rfl
  have h4 : skipWs ('"' :: more) = '"' :: more := rfl
  rw [hs, show f + 2 = Nat.succ g from by rw [hg], ← hg]
  simp only [parseObjTail, hsb, h1, h2, h3, h4]
  cases parseObjTail g ('"' :: more) with
  | none => rfl
  | some p => rfl

theorem parseVal_objLayer (f : Nat) (t1 : List Char) :
    parseVal (Nat.succ f) ('{' :: ('"' :: t1)) =
      (match parseObjTail f ('"' :: t1) with
        | none => none
        | some (fs, r) => some (Json.obj fs, r)) := by
  have h0 : skipWs ('{' :: ('"' :: t1)) = '{' :: ('"' :: t1) := rfl
  have h1 : skipWs ('"' :: t1) = '"' :: t1 := rfl
  simp only [parseVal, h0, h1]
  simp

theorem parseVal_pairObj (f : Nat) (mv sv : String) (hmv : plainChars mv)
    (hsv : plainChars sv) (rest : List Char) :
    parseVal (f + 4) (mkPairObj mv sv ++ rest) =
      some (Json.obj [(("main_category" : String), Json.str mv),
                      (("sub_category" : String), Json.str sv)], rest) := by
  have hkey1 : plainChars ("main_category") := by decide
  have hkey2 : plainChars ("sub_category") := by decide
  have hs : mkPairObj mv sv ++ rest =
      '{' :: ('"' :: (("main_category" : String).data ++ '"' ::
        (':' :: (strLit mv ++ ',' :: '"' ::
          (("sub_category" : String).data ++ '"' ::
            (':' :: (strLit sv ++ '}' :: rest))))))) := by
    simp [mkPairObj, strLit]
  rw [hs, show f + 4 = Nat.succ (f + 3) from rfl, parseVal_objLayer]
  have hT1 : ('"' : Char) :: (("main_category" : String).data ++ '"' ::
      (':' :: (strLit mv ++ ',' :: '"' ::
        (("sub_category" : String).data ++ '"' ::
          (':' :: (strLit sv ++ '}' :: rest)))))) =
      strLit ("main_category") ++ ':' :: strLit mv ++ ',' :: '"' ::
        (("sub_category" : String).data ++ '"' ::
          (':' :: (strLit sv ++ '}' :: rest))) := by
    simp [strLit]
  rw [hT1, show f + 3 = (f + 1) + 2 from rfl]
  rw [parseObjTail_cons (f + 1) ("main_category") mv hkey1 hmv
    (("sub_category" : String).data ++ '"' :: (':' :: (strLit sv ++ '}' :: rest)))]
  have hsub : ('"' : Char) :: (("sub_category" : String).data ++ '"' ::
      (':' :: (strLit sv ++ '}' :: rest))) =
      strLit ("sub_category") ++ ':' :: strLit sv ++ '}' :: rest := by
    simp [strLit]
  rw [hsub, show (f + 1) + 1 = f + 2 from rfl]
  rw [parseObjTail_last f ("sub_category") sv hkey2 hsv rest]
  rfl

theorem scanPairsGo_skip {op cl : Char} :
    ∀ {a : List Char}, (∀ c ∈ a, c ≠ op) → ∀ rest,
      scanPairsGo op cl (a ++ rest) [] false = scanPairsGo op cl rest [] false := by
  intro a
  induction a with
  | nil =>
    intro _ rest
    rfl
  | cons c cs ih =>
    intro h rest
    have hc := h c (List.mem_cons_self _ _)
    show scanPairsGo op cl (c :: (cs ++ rest)) [] false = _
    rw [scanPairsGo]
    simp only [if_neg (by exact fun hh => hc hh), Bool.false_eq_true, if_false]
    exact ih (fun d hd => h d (List.mem_cons_of_mem _ hd)) rest

theorem scanPairsGo_body {op cl : Char} :
    ∀ {b : List Char}, (∀ c ∈ b, c ≠ cl) → ∀ acc rest,
      scanPairsGo op cl (b ++ rest) acc true =
        scanPairsGo op cl rest (b.reverse ++ acc) true := by
  intro b
  induction b with
  | nil =>
    intro _ acc rest
    rfl
  | cons c cs ih =>
    intro h acc rest
    have hc := h c (List.mem_cons_self _ _)
    show scanPairsGo op cl (c :: (cs ++ rest)) acc true = _
    rw [scanPairsGo]
    simp only [if_pos rfl, if_neg (by exact fun hh => hc hh)]
    rw [ih (fun d hd => h d (List.mem_cons_of_mem _ hd)) (c :: acc) rest]
    simp

theorem scanPairsGo_match {op cl : Char} (hne : op ≠ cl) {b : List Char}
    (hb : ∀ c ∈ b, c ≠ cl) (rest : List Char) :
    scanPairsGo op cl (op :: (b ++ cl :: rest)) [] false =
      (op :: (b ++ [cl])) :: scanPairsGo op cl rest [] false := by
  show scanPairsGo op cl (op :: (b ++ cl :: rest)) [] false = _
  rw [scanPairsGo]
  simp only [Bool.false_eq_true, if_false, if_pos rfl]
  rw [scanPairsGo_body hb [] (cl :: rest)]
  rw [scanPairsGo]
  simp only [if_pos rfl]
  simp

theorem mkPairObj_shape (mv sv : String) :
    mkPairObj mv sv = '{' :: (pairBody mv sv ++ ['}']) := by
  simp [mkPairObj, pairBody, strLit]

theorem twoObjText_scan_shape (m1 s1 m2 s2 : String) :
    twoObjText m1 s1 m2 s2 =
      '{' :: (pairBody m1 s1 ++ '}' :: (' ' :: ('{' :: (pairBody m2 s2 ++ '}' :: [])))) := by
  simp [twoObjText, mkPairObj, pairBody, strLit]

theorem braceFree_append {a b : List Char} (ha : braceFree a) (hb : braceFree b) :
    braceFree (a ++ b) := by
  intro c hc
  rcases List.mem_append.mp hc with h | h
  · exact ha c h
  · exact hb c h

theorem braceFree_cons {c0 : Char} {l : List Char} (h1 : c0 ≠ '{') (h2 : c0 ≠ '}')
    (hl : braceFree l) : braceFree (c0 :: l) := by
  intro c hc
  rcases List.mem_cons.mp hc with h | h
  · exact h ▸ ⟨h1, h2⟩
  · exact hl c h

theorem braceFree_strLit {v : String} (hv : plainChars v) : braceFree (strLit v) := by
  refine braceFree_cons (by decide) (by decide) ?_
  refine braceFree_append ?_ ?_
  · intro c hc
    exact ⟨(hv c hc).2.2.1, (hv c hc).2.2.2⟩
  · intro c hc
    simp at hc
    exact hc ▸ (by decide)

theorem braceFree_pairBody {mv sv : String} (hmv : plainChars mv) (hsv : plainChars sv) :
    braceFree (pairBody mv sv) := by
  unfold pairBody
  exact braceFree_append (braceFree_append (braceFree_append
    (braceFree_strLit (by decide))
    (braceFree_cons (by decide) (by decide) (braceFree_strLit hmv)))
    (braceFree_cons (by decide) (by decide) (braceFree_strLit (by decide))))
    (braceFree_cons (by decide) (by decide) (braceFree_strLit hsv))

theorem scanPairs_twoObjText {m1 s1 m2 s2 : String} (h1 : plainChars m1)
    (h2 : plainChars s1) (h3 : plainChars m2) (h4 : plainChars s2) :
    scanPairs '{' '}' (twoObjText m1 s1 m2 s2) = [mkPairObj m1 s1, mkPairObj m2 s2] := by
  have hb1 := braceFree_pairBody h1 h2
  have hb2 := braceFree_pairBody h3 h4
  rw [twoObjText_scan_shape]
  unfold scanPairs
  rw [scanPairsGo_match (by decide) (fun c hc => (hb1 c hc).2)]
  rw [show (' ' :: ('{' :: (pairBody m2 s2 ++ '}' :: []))) =
      [' '] ++ ('{' :: (pairBody m2 s2 ++ '}' :: [])) from rfl]
  rw [scanPairsGo_skip (by decide)]
  rw [scanPairsGo_match (by decide) (fun c hc => (hb2 c hc).2)]
  rw [← mkPairObj_shape, ← mkPairObj_shape]
  rfl

theorem twoObjText_length (m1 s1 m2 s2 : String) :
    3 ≤ (twoObjText m1 s1 m2 s2).length := by
  rw [twoObjText_scan_shape]
  simp
  omega

theorem jsonParse_twoObjText_none {m1 s1 m2 s2 : String} (h1 : plainChars m1)
    (h2 : plainChars s1) :
    jsonParse (twoObjText m1 s1 m2 s2) = none := by
  have hlen := twoObjText_length m1 s1 m2 s2
  unfold jsonParse
  rw [show (twoObjText m1 s1 m2 s2).length + 1 =
      ((twoObjText m1 s1 m2 s2).length - 3) + 4 from by omega]
  rw [show twoObjText m1 s1 m2 s2 = mkPairObj m1 s1 ++ (' ' :: mkPairObj m2 s2) from rfl]
  rw [parseVal_pairObj _ m1 s1 h1 h2 (' ' :: mkPairObj m2 s2)]
  have hskip : skipWs (' ' :: mkPairObj m2 s2) = mkPairObj m2 s2 := rfl
  have hne : mkPairObj m2 s2 ≠ [] := by
    rw [mkPairObj_shape]
    simp
  simp [hskip, hne]

theorem stripL_twoObjText (m1 s1 m2 s2 : String) :
    stripL (twoObjText m1 s1 m2 s2) = twoObjText m1 s1 m2 s2 := by
  have hconc : twoObjText m1 s1 m2 s2 =
      ('{' :: (pairBody m1 s1 ++ '}' :: (' ' :: ('{' :: pairBody m2 s2)))) ++ ['}'] := by
    simp [twoObjText, mkPairObj, pairBody, strLit]
  refine stripL_eq_self ?_ ?_
  · intro a ha
    rw [twoObjText_scan_shape] at ha
    simp at ha
    rw [← ha]
    decide
  · intro a ha
    rw [hconc, List.getLast?_concat] at ha
    simp at ha
    rw [← ha]
    decide

theorem stripFences_twoObjText (m1 s1 m2 s2 : String) :
    stripFences (twoObjText m1 s1 m2 s2) = twoObjText m1 s1 m2 s2 := by
  have htake : (twoObjText m1 s1 m2 s2).take 3 = ['{', '"', 'm'] := rfl
  unfold stripFences
  rw [if_neg]
  intro hcond
  rw [htake] at hcond
  exact absurd hcond.1 (by decide)

/-- C2 (amended): when whole-text parsing fails, the extractor scans with
the NON-greedy shortest-span brace pattern (`\x7b.*?\x7d`), takes the last
match and parses it: for any text made of two flat classification objects in
sequence (field values free of quote, backslash and brace metacharacters),
extraction returns the second object. -/
theorem c2_nongreedy_last_object (m1 s1 m2 s2 : String) (h1 : plainChars m1)
    (h2 : plainChars s1) (h3 : plainChars m2) (h4 : plainChars s2) :
    extract_json_part (twoObjText m1 s1 m2 s2) =
      some (Json.obj [(("main_category" : String), Json.str m2),
                      (("sub_category" : String), Json.str s2)]) := by
  have hlast : ([mkPairObj m1 s1, mkPairObj m2 s2] : List (List Char)).getLast? =
      some (mkPairObj m2 s2) := rfl
  unfold extract_json_part
  rw [jsonParse_twoObjText_none h1 h2]
  simp only [stripL_twoObjText, stripFences_twoObjText,
    scanPairs_twoObjText h1 h2 h3 h4, hlast]
  show jsonParse (mkPairObj m2 s2) = _
  have hlen : 3 ≤ (mkPairObj m2 s2).length := by
    rw [mkPairObj_shape]
    simp [pairBody, strLit]
  unfold jsonParse
  rw [show (mkPairObj m2 s2).length + 1 = ((mkPairObj m2 s2).length - 3) + 4 from by omega]
  rw [show mkPairObj m2 s2 = mkPairObj m2 s2 ++ [] from by simp]
  rw [parseVal_pairObj _ m2 s2 h3 h4 []]
  rfl

/-- Witness for C2 (amended) at concrete field values. -/
theorem c2_nongreedy_last_object_witness :
    extract_json_part (twoObjText ("A1") ("B1") ("A2") ("B2")) =
      some (Json.obj [(("main_category" : String), Json.str ("A2")),
                      (("sub_category" : String), Json.str ("B2"))]) :=
  c2_nongreedy_last_object ("A1") ("B1") ("A2") ("B2")
    (by decide) (by decide) (by decide) (by decide)

/-- C2 counterexample: on a text holding two flat classification objects in
sequence, the non-greedy scan the code performs finds both objects and
returns the second; the greedy scan the claim describes produces a single
match spanning from the first opening brace to the last closing brace, whose
parse fails, so extraction as the claim describes it recovers nothing: the
extractor's pattern is non-greedy, not greedy. -/
theorem c2_counterexample :
    extract_json_part (twoObjText ("X1") ("Y1") ("X2") ("Y2")) =
      some (Json.obj [(("main_category" : String), Json.str ("X2")),
                      (("sub_category" : String), Json.str ("Y2"))]) ∧
    extractGreedySpec (twoObjText ("X1") ("Y1") ("X2") ("Y2")) = none :=
  ⟨rfl, rfl⟩

end MC
